import Mathlib

/-!
Shallow embedding of `scripts/hiddenapi/signature_trie.py`: a signature trie
mapping dex signatures (decomposed into package / class / member elements) to
opaque values, with wildcard pattern matching.

The Python classes `InteriorNode` (holding an insertion-ordered `dict` from
element string to child) and `Leaf` (holding one value) become the mutual
inductive types `Node` / `NodeMap`; the dict is an insertion-ordered
association list.  The Python methods `signature_to_elements`, `add`,
`get_matching_rows`, `values` and `append_values` are translated one by one.
Python exceptions become explicit error values; since `add` mutates the tree
before it can raise, it returns the (possibly mutated) tree *together with*
the optional error, so that the post-state of a failing call stays visible.
-/

namespace SignatureTrie

/-! ### Python string primitives, modelled on `List Char`

Lean's own `String.splitOn` and friends do not reduce inside the kernel, so
the Python string operations used by the source (`str.split`,
`str.startswith`, `str.removeprefix`) are re-implemented here over `.data`
(the character list of a `String`), with a fuel argument making the split
structurally recursive.  `pySplit` reproduces CPython's `str.split(sep)` for a
non-empty separator: repeatedly split at the leftmost remaining occurrence of
`sep`, scanning left to right without overlap. -/

/-- Worker for `pySplit`.  Scans `s` left to right; whenever `sep` occurs,
emits the accumulated chunk and restarts after the separator.  `fuel` only
bounds the recursion; any `fuel ≥ s.length` gives the true result. -/
def splitChAux (sep : List Char) : Nat → List Char → List Char → List (List Char)
  | _, [], acc => [acc]
  | 0, s, acc => [acc ++ s]
  | fuel + 1, c :: rest, acc =>
    if sep.isPrefixOf (c :: rest) then
      acc :: splitChAux sep fuel ((c :: rest).drop sep.length) []
    else
      splitChAux sep fuel rest (acc ++ [c])

/-- Python `s.split(sep)` for a non-empty separator `sep`. -/
def pySplit (s sep : String) : List String :=
  (splitChAux sep.data s.data.length s.data []).map (fun l => ⟨l⟩)

/-- Python `s.startswith(p)`. -/
def pyStartsWith (s p : String) : Bool :=
  p.data.isPrefixOf s.data

/-- Python `s.removeprefix("L")`: drop a single leading `L` when present. -/
def stripL (s : String) : String :=
  if pyStartsWith s "L" then ⟨s.data.drop 1⟩ else s

/-! ### Error values

The Python code raises bare `Exception`s; the spec names the three conditions
`MalformedPattern`, `InvalidMemberSignature` and `DuplicateSignature`.  The
fourth constructor models the `AttributeError` the interpreter itself raises
when the code accesses `.nodes` on a `Leaf` (possible when an element path
runs *through* a leaf); it corresponds to no deliberate `raise` statement. -/

/-- Failure modes of the trie operations. -/
inductive TrieError where
  | malformedPattern
  | invalidMemberSignature
  | duplicateSignature
  | attributeError
deriving DecidableEq, Repr

/-! ### The trie -/

mutual
/-- A trie node: `InteriorNode` (with its `nodes` dict) or `Leaf` (one value). -/
inductive Node (V : Type) where
  | interior (nodes : NodeMap V)
  | leaf (value : V)
/-- The `nodes` dict of an `InteriorNode`, as an insertion-ordered association
list from element string to child node. -/
inductive NodeMap (V : Type) where
  | nil
  | cons (key : String) (child : Node V) (rest : NodeMap V)
end

/-- Dict lookup `nodes[element]` / membership `element in nodes` combined. -/
def NodeMap.find {V : Type} : NodeMap V → String → Option (Node V)
  | .nil, _ => none
  | .cons k c rest, e => if k = e then some c else rest.find e

/-- In-place mutation of the child stored under an existing key (the Python
code mutates the child object it looked up; its position is unchanged). -/
def NodeMap.replace {V : Type} : NodeMap V → String → Node V → NodeMap V
  | .nil, _, _ => .nil
  | .cons k c rest, e, c2 =>
    if k = e then .cons k c2 rest else .cons k c (rest.replace e c2)

/-- Dict assignment `nodes[element] = child` for a key not yet present: a new
entry appears at the end of the insertion order. -/
def NodeMap.append {V : Type} : NodeMap V → String → Node V → NodeMap V
  | .nil, e, c => .cons e c .nil
  | .cons k c rest, e, c2 => .cons k c (rest.append e c2)

/-- `signature_trie()`: an empty root `InteriorNode`. -/
def signature_trie {V : Type} : Node V :=
  .interior .nil

/-! ### `InteriorNode.signature_to_elements` -/

/-- `InteriorNode.signature_to_elements(signature)`.  Strips one leading `L`,
splits on `;->` into qualified class name and member signature(s), splits the
class part on `/` into packages plus class name; a class name of `*`/`**`
must not be combined with a member part, otherwise the class name splits
further on `$` into nested class names.  Elements are tagged `package:`,
`class:`, `member:`; a wildcard stays untagged. -/
def signature_to_elements (signature : String) : Except TrieError (List String) :=
  let text := stripL signature
  let parts := pySplit text ";->"
  let member := parts.tail
  let elements := pySplit (parts.headD "") "/"
  let packages := elements.dropLast
  let class_name := elements.getLastD ""
  if class_name = "*" ∨ class_name = "**" then
    if member.length ≠ 0 then
      .error .malformedPattern
    else
      .ok (packages.map (fun x => "package:" ++ x) ++ [class_name])
  else
    let classes := pySplit class_name "$"
    .ok (packages.map (fun x => "package:" ++ x) ++
         classes.map (fun x => "class:" ++ x) ++
         member.map (fun x => "member:" ++ x))

/-! ### `InteriorNode.add` -/

/-- The walk inside `add`: descend through all elements but the last, creating
missing interior nodes on the way, then attach a `Leaf` under the last
element.  Returns the tree as left behind by the call together with the error
raised, if any: the Python method mutates `self` while walking and only then
checks the final element, so a failing call can still have grown the tree. -/
def addWalk {V : Type} : Node V → List String → String → V → Node V × Option TrieError
  | .leaf v0, _, _, _ => (.leaf v0, some .attributeError)
  | .interior ns, [], last, v =>
    if !(pyStartsWith last "member:") then
      (.interior ns, some .invalidMemberSignature)
    else
      match ns.find last with
      | some _ => (.interior ns, some .duplicateSignature)
      | none => (.interior (ns.append last (.leaf v)), none)
  | .interior ns, e :: rest, last, v =>
    match ns.find e with
    | some child =>
      let r := addWalk child rest last v
      (.interior (ns.replace e r.1), r.2)
    | none =>
      let r := addWalk (.interior .nil) rest last v
      (.interior (ns.append e r.1), r.2)

/-- `InteriorNode.add(signature, value)`, called on the root.  Pairs the
resulting tree with the raised error, if any.  Decomposition never returns an
empty element list, so the `.ok []` branch is unreachable. -/
def add {V : Type} (root : Node V) (signature : String) (value : V) :
    Node V × Option TrieError :=
  match signature_to_elements signature with
  | .error err => (root, some err)
  | .ok [] => (root, some .attributeError)
  | .ok (e :: es) =>
    addWalk root (e :: es).dropLast ((e :: es).getLast (List.cons_ne_nil e es)) value

/-! ### `values` / `append_values` -/

mutual
/-- `append_values(values, selector)` on a node: a `Leaf` appends its single
value; an `InteriorNode` iterates its dict and, for each child whose key the
selector accepts, appends that child's entire subtree with the always-true
selector. -/
def Node.append_values {V : Type} : Node V → List (List V) → (String → Bool) → List (List V)
  | .leaf v, values, _ => values ++ [[v]]
  | .interior ns, values, sel => NodeMap.appendValuesLoop ns values sel
/-- The `for key, node in self.nodes.items()` loop of
`InteriorNode.append_values`. -/
def NodeMap.appendValuesLoop {V : Type} : NodeMap V → List (List V) → (String → Bool) → List (List V)
  | .nil, values, _ => values
  | .cons k c rest, values, sel =>
    NodeMap.appendValuesLoop rest
      (if sel k then Node.append_values c values (fun _ => true) else values) sel
end

/-- `values(selector)`: start from an empty list and `append_values` into it.
(`Leaf.values` returns `[[value]]` directly, which coincides.) -/
def Node.values {V : Type} (n : Node V) (sel : String → Bool) : List (List V) :=
  n.append_values [] sel

/-! ### `InteriorNode.get_matching_rows` -/

/-- The walk inside `get_matching_rows`: descend element by element, returning
an empty result as soon as an element has no child; from the reached node
return the flattened `values(selector)`. -/
def matchWalk {V : Type} : Node V → List String → (String → Bool) → Except TrieError (List V)
  | node, [], sel => .ok (node.values sel).flatten
  | .leaf _, _ :: _, _ => .error .attributeError
  | .interior ns, e :: rest, sel =>
    match ns.find e with
    | some child => matchWalk child rest sel
    | none => .ok []

/-- `InteriorNode.get_matching_rows(pattern)`, called on the root.  A trailing
`*`/`**` element is dropped from the walked path; for `*` the selector
excludes `package:`-tagged children.  Decomposition never returns an empty
element list, so the `.ok []` branch is unreachable. -/
def get_matching_rows {V : Type} (root : Node V) (pattern : String) :
    Except TrieError (List V) :=
  match signature_to_elements pattern with
  | .error err => .error err
  | .ok [] => .error .attributeError
  | .ok (e :: es) =>
    let last := (e :: es).getLast (List.cons_ne_nil e es)
    if last = "*" ∨ last = "**" then
      matchWalk root (e :: es).dropLast
        (if last = "*" then fun x => !(pyStartsWith x "package:") else fun _ => true)
    else
      matchWalk root (e :: es) (fun _ => true)

/-! ### State-threaded query

`get_matching_rows` only ever reads the tree, but in Python it operates on a
mutable heap object, so "the trie is unchanged afterwards" is a statement
about state.  `matchWalkSt` re-runs the same walk while explicitly threading
the tree through: every node the walk descends into is written back into its
parent, exactly where an in-place mutation by the callee would land.  Proving
its final state equal to the initial tree captures that the query never
mutates. -/

/-- State-threaded version of `matchWalk`: also returns the tree as left
behind by the walk. -/
def matchWalkSt {V : Type} : Node V → List String → (String → Bool) →
    Except TrieError (List V) × Node V
  | node, [], sel => (.ok (node.values sel).flatten, node)
  | .leaf v, _ :: _, _ => (.error .attributeError, .leaf v)
  | .interior ns, e :: rest, sel =>
    match ns.find e with
    | some child =>
      let r := matchWalkSt child rest sel
      (r.1, .interior (ns.replace e r.2))
    | none => (.ok [], .interior ns)

/-- State-threaded version of `get_matching_rows`: also returns the tree as
left behind by the query. -/
def get_matching_rows_st {V : Type} (root : Node V) (pattern : String) :
    Except TrieError (List V) × Node V :=
  match signature_to_elements pattern with
  | .error err => (.error err, root)
  | .ok [] => (.error .attributeError, root)
  | .ok (e :: es) =>
    let last := (e :: es).getLast (List.cons_ne_nil e es)
    if last = "*" ∨ last = "**" then
      matchWalkSt root (e :: es).dropLast
        (if last = "*" then fun x => !(pyStartsWith x "package:") else fun _ => true)
    else
      matchWalkSt root (e :: es) (fun _ => true)

/-! ### Specification-side characterizations

These definitions restate, independently of the selector plumbing, what a
query collects; the claim theorems connect them to `get_matching_rows`. -/

mutual
/-- All values stored anywhere in a subtree. -/
def subtreeValues {V : Type} : Node V → List V
  | .leaf v => [v]
  | .interior ns => subtreeValuesMap ns
/-- All values stored anywhere below the entries of a dict. -/
def subtreeValuesMap {V : Type} : NodeMap V → List V
  | .nil => []
  | .cons _ c rest => subtreeValues c ++ subtreeValuesMap rest
end

/-- The values a selector lets through at the first level below a dict: each
entry whose key the selector accepts contributes its entire subtree. -/
def selectedValuesMap {V : Type} (sel : String → Bool) : NodeMap V → List V
  | .nil => []
  | .cons k c rest =>
    (if sel k then subtreeValues c else []) ++ selectedValuesMap sel rest

/-- The values a selector lets through at a node: a leaf always contributes
its value, an interior node filters its first-level children by key. -/
def selectedValues {V : Type} (sel : String → Bool) : Node V → List V
  | .leaf v => [v]
  | .interior ns => selectedValuesMap sel ns

/-- The walk of an element path hits an interior node with no child for the
next element (the situation in which `get_matching_rows` answers `[]`). -/
def walkMissing {V : Type} : Node V → List String → Bool
  | _, [] => false
  | .leaf _, _ :: _ => false
  | .interior ns, e :: rest =>
    match ns.find e with
    | some child => walkMissing child rest
    | none => true

/-- The node reached by walking an element path through existing children. -/
def walkNode {V : Type} : Node V → List String → Option (Node V)
  | n, [] => some n
  | .leaf _, _ :: _ => none
  | .interior ns, e :: rest =>
    match ns.find e with
    | some child => walkNode child rest
    | none => none

/-- The condition under which decomposition fails (the spec's
`MalformedPattern`): the final class-name component is a wildcard marker and
a member signature is present as well. -/
def wildcardWithMember (s : String) : Bool :=
  let parts := pySplit (stripL s) ";->"
  let elements := pySplit (parts.headD "") "/"
  (elements.getLastD "" = "*" || elements.getLastD "" = "**") && !parts.tail.isEmpty

/-- The element path actually walked by `get_matching_rows`: a trailing
wildcard element is dropped. -/
def effectiveElements (es : List String) : List String :=
  if es.getLastD "" = "*" ∨ es.getLastD "" = "**" then es.dropLast else es

/-- Repeated insertion: feed a list of (signature, value) pairs to `add`,
keeping the tree each call leaves behind (also after failed calls, as a
Python caller catching the exceptions would). -/
def insertAll {V : Type} : Node V → List (String × V) → Node V
  | t, [] => t
  | t, (s, v) :: rest => insertAll (add t s v).1 rest

/-- The values whose insertion succeeded along a run of `insertAll`. -/
def successfulValues {V : Type} : Node V → List (String × V) → List V
  | _, [] => []
  | t, (s, v) :: rest =>
    (if (add t s v).2 = none then [v] else []) ++ successfulValues (add t s v).1 rest

/-! ### Induction principles

`induction` does not directly support the mutual family `Node`/`NodeMap`, so
the needed eliminators are provided as recursive theorems. -/

/-- Structural induction over a dict alone (children untouched). -/
theorem NodeMap.inductionMap {V : Type} {motive : NodeMap V → Prop} (hnil : motive .nil)
    (hcons : ∀ k c rest, motive rest → motive (.cons k c rest)) : ∀ ns, motive ns
  | .nil => hnil
  | .cons k c rest => hcons k c rest (NodeMap.inductionMap hnil hcons rest)

/-! ### Dict lemmas -/

/-- Looking up a key after mutating its child finds the new child. -/
theorem NodeMap.find_replace {V : Type} (e : String) (c2 : Node V) :
    ∀ (ns : NodeMap V), (ns.find e).isSome → (ns.replace e c2).find e = some c2 := by
  intro ns
  induction ns using NodeMap.inductionMap with
  | hnil => simp [NodeMap.find]
  | hcons k c0 rest ih =>
    by_cases hk : k = e
    · simp [NodeMap.replace, hk, NodeMap.find]
    · simp only [NodeMap.find, NodeMap.replace, hk, if_false, if_neg hk]
      exact ih

/-- Writing back the child that is already stored changes nothing. -/
theorem NodeMap.replace_cancel {V : Type} (e : String) (c : Node V) :
    ∀ (ns : NodeMap V), ns.find e = some c → ns.replace e c = ns := by
  intro ns
  induction ns using NodeMap.inductionMap with
  | hnil => simp [NodeMap.find]
  | hcons k c0 rest ih =>
    by_cases hk : k = e
    · intro h
      simp only [NodeMap.find, if_pos hk] at h
      cases h
      simp [NodeMap.replace, hk]
    · intro h
      simp only [NodeMap.find, if_neg hk] at h
      simp [NodeMap.replace, hk, ih h]

/-- Looking up a freshly appended key finds the appended child. -/
theorem NodeMap.find_append_self {V : Type} (e : String) (c : Node V) :
    ∀ (ns : NodeMap V), ns.find e = none → (ns.append e c).find e = some c := by
  intro ns
  induction ns using NodeMap.inductionMap with
  | hnil => simp [NodeMap.find, NodeMap.append]
  | hcons k c0 rest ih =>
    by_cases hk : k = e
    · simp [NodeMap.find, hk]
    · simp only [NodeMap.find, NodeMap.append, if_neg hk]
      exact ih

/-- Appending an entry appends its subtree values. -/
theorem subtreeValuesMap_append {V : Type} (e : String) (c : Node V) :
    ∀ (ns : NodeMap V),
      subtreeValuesMap (ns.append e c) = subtreeValuesMap ns ++ subtreeValues c := by
  intro ns
  induction ns using NodeMap.inductionMap with
  | hnil => simp [NodeMap.append, subtreeValuesMap, subtreeValues]
  | hcons k c0 rest ih => simp [NodeMap.append, subtreeValuesMap, ih]

/-- Mutating a stored child into one with the same subtree values preserves
the dict's subtree values. -/
theorem subtreeValuesMap_replace_eq {V : Type} (e : String) (c c2 : Node V)
    (hv : subtreeValues c2 = subtreeValues c) :
    ∀ (ns : NodeMap V), ns.find e = some c →
      subtreeValuesMap (ns.replace e c2) = subtreeValuesMap ns := by
  intro ns
  induction ns using NodeMap.inductionMap with
  | hnil => simp [NodeMap.find]
  | hcons k c0 rest ih =>
    by_cases hk : k = e
    · intro h
      simp only [NodeMap.find, if_pos hk] at h
      cases h
      simp [NodeMap.replace, hk, subtreeValuesMap, hv]
    · intro h
      simp only [NodeMap.find, if_neg hk] at h
      simp [NodeMap.replace, hk, subtreeValuesMap, ih h]

/-- Mutating a stored child into one holding one extra value `v` turns the
dict's subtree values into a permutation of `v` plus the old ones. -/
theorem subtreeValuesMap_replace_perm {V : Type} (e : String) (c c2 : Node V) (v : V)
    (hv : (subtreeValues c2).Perm (v :: subtreeValues c)) :
    ∀ (ns : NodeMap V), ns.find e = some c →
      (subtreeValuesMap (ns.replace e c2)).Perm (v :: subtreeValuesMap ns) := by
  intro ns
  induction ns using NodeMap.inductionMap with
  | hnil => simp [NodeMap.find]
  | hcons k c0 rest ih =>
    by_cases hk : k = e
    · intro h
      simp only [NodeMap.find, if_pos hk] at h
      cases h
      simp only [NodeMap.replace, if_pos hk, subtreeValuesMap]
      exact hv.append_right _
    · intro h
      simp only [NodeMap.find, if_neg hk] at h
      simp only [NodeMap.replace, if_neg hk, subtreeValuesMap]
      exact ((ih h).append_left (subtreeValues c0)).trans List.perm_middle

/-! ### Collection lemmas: `values` / `append_values` vs `selectedValues` -/

/-- With the always-true selector, first-level selection collects the whole
subtree (dict side). -/
theorem selectedValuesMap_true {V : Type} :
    ∀ (ns : NodeMap V), selectedValuesMap (fun _ => true) ns = subtreeValuesMap ns := by
  intro ns
  induction ns using NodeMap.inductionMap with
  | hnil => simp [selectedValuesMap, subtreeValuesMap]
  | hcons k c rest ih => simp [selectedValuesMap, subtreeValuesMap, ih]

/-- With the always-true selector, first-level selection collects the whole
subtree. -/
theorem selectedValues_true {V : Type} (n : Node V) :
    selectedValues (fun _ => true) n = subtreeValues n := by
  cases n with
  | leaf v => simp [selectedValues, subtreeValues]
  | interior ns => simp [selectedValues, subtreeValues, selectedValuesMap_true]

mutual
/-- Flattening what `append_values` appends yields the selector-filtered
values, after whatever was already accumulated. -/
theorem append_values_flatten {V : Type} :
    ∀ (n : Node V) (acc : List (List V)) (sel : String → Bool),
      (n.append_values acc sel).flatten = acc.flatten ++ selectedValues sel n
  | .leaf v, acc, sel => by
      simp [Node.append_values, selectedValues]
  | .interior ns, acc, sel => by
      simp [Node.append_values, selectedValues, appendValuesLoop_flatten ns acc sel]
/-- Flattening what the `append_values` child loop appends yields the
selector-filtered values, after whatever was already accumulated. -/
theorem appendValuesLoop_flatten {V : Type} :
    ∀ (ns : NodeMap V) (acc : List (List V)) (sel : String → Bool),
      (NodeMap.appendValuesLoop ns acc sel).flatten = acc.flatten ++ selectedValuesMap sel ns
  | .nil, acc, sel => by
      simp [NodeMap.appendValuesLoop, selectedValuesMap]
  | .cons k c rest, acc, sel => by
      by_cases hk : sel k
      · rw [NodeMap.appendValuesLoop, if_pos hk,
          appendValuesLoop_flatten rest (c.append_values acc (fun _ => true)) sel,
          append_values_flatten c acc (fun _ => true), selectedValues_true]
        simp [selectedValuesMap, hk]
      · rw [NodeMap.appendValuesLoop, if_neg hk, appendValuesLoop_flatten rest acc sel]
        simp [selectedValuesMap, hk]
end

/-- Flattened `values(selector)` is exactly the selector-filtered collection. -/
theorem values_flatten {V : Type} (n : Node V) (sel : String → Bool) :
    (n.values sel).flatten = selectedValues sel n := by
  simp [Node.values, append_values_flatten]

/-! ### Walk lemmas -/

/-- A query walk that reaches a node returns that node's selector-filtered
collection. -/
theorem matchWalk_walkNode {V : Type} (sel : String → Bool) :
    ∀ (p : List String) (n m : Node V), walkNode n p = some m →
      matchWalk n p sel = .ok (selectedValues sel m) := by
  intro p
  induction p with
  | nil =>
    intro n m h
    simp only [walkNode, Option.some.injEq] at h
    subst h
    simp [matchWalk, values_flatten]
  | cons e rest ih =>
    intro n m h
    cases n with
    | leaf v => simp [walkNode] at h
    | interior ns =>
      cases hf : ns.find e with
      | none => simp [walkNode, hf] at h
      | some child =>
        simp only [walkNode, hf] at h
        simp only [matchWalk, hf]
        exact ih child m h

/-- A query walk that runs into a missing child returns the empty collection. -/
theorem walkMissing_matchWalk {V : Type} (sel : String → Bool) :
    ∀ (p : List String) (n : Node V), walkMissing n p = true →
      matchWalk n p sel = .ok [] := by
  intro p
  induction p with
  | nil => intro n h; simp [walkMissing] at h
  | cons e rest ih =>
    intro n h
    cases n with
    | leaf v => simp [walkMissing] at h
    | interior ns =>
      cases hf : ns.find e with
      | none => simp [matchWalk, hf]
      | some child =>
        simp only [walkMissing, hf] at h
        simp only [matchWalk, hf]
        exact ih child h

/-- The state-threaded query walk computes the same answer as `matchWalk` and
leaves the tree exactly as it found it. -/
theorem matchWalkSt_spec {V : Type} (sel : String → Bool) :
    ∀ (p : List String) (n : Node V), matchWalkSt n p sel = (matchWalk n p sel, n) := by
  intro p
  induction p with
  | nil => intro n; simp [matchWalkSt, matchWalk]
  | cons e rest ih =>
    intro n
    cases n with
    | leaf v => simp [matchWalkSt, matchWalk]
    | interior ns =>
      cases hf : ns.find e with
      | none => simp [matchWalkSt, matchWalk, hf]
      | some child =>
        simp only [matchWalkSt, matchWalk, hf, ih child]
        rw [NodeMap.replace_cancel e child ns hf]

/-- A successful insertion walk was given a last element tagged `member:`. -/
theorem addWalk_member {V : Type} :
    ∀ (p : List String) (n t : Node V) (last : String) (v : V),
      addWalk n p last v = (t, none) → pyStartsWith last "member:" = true := by
  intro p
  induction p with
  | nil =>
    intro n t last v h
    cases n with
    | leaf v0 => simp [addWalk] at h
    | interior ns =>
      by_cases hm : pyStartsWith last "member:"
      · exact hm
      · simp [addWalk, hm] at h
  | cons e rest ih =>
    intro n t last v h
    cases n with
    | leaf v0 => simp [addWalk] at h
    | interior ns =>
      cases hf : ns.find e with
      | some child =>
        simp only [addWalk, hf] at h
        rcases hr : addWalk child rest last v with ⟨t2, err⟩
        rw [hr] at h
        simp only [Prod.mk.injEq] at h
        exact ih child t2 last v (by rw [hr, h.2])
      | none =>
        simp only [addWalk, hf] at h
        rcases hr : addWalk (.interior .nil : Node V) rest last v with ⟨t2, err⟩
        rw [hr] at h
        simp only [Prod.mk.injEq] at h
        exact ih _ t2 last v (by rw [hr, h.2])

/-- After a successful insertion walk, walking the full element path (all
elements plus the member element) reaches exactly the new leaf. -/
theorem addWalk_walkNode {V : Type} :
    ∀ (p : List String) (n t : Node V) (last : String) (v : V),
      addWalk n p last v = (t, none) → walkNode t (p ++ [last]) = some (.leaf v) := by
  intro p
  induction p with
  | nil =>
    intro n t last v h
    cases n with
    | leaf v0 => simp [addWalk] at h
    | interior ns =>
      by_cases hm : pyStartsWith last "member:"
      · cases hf : ns.find last with
        | some c => simp [addWalk, hm, hf] at h
        | none =>
          simp [addWalk, hm, hf] at h
          rw [← h]
          simp [walkNode, NodeMap.find_append_self last (.leaf v) ns hf]
      · simp [addWalk, hm] at h
  | cons e rest ih =>
    intro n t last v h
    cases n with
    | leaf v0 => simp [addWalk] at h
    | interior ns =>
      cases hf : ns.find e with
      | some child =>
        simp only [addWalk, hf] at h
        rcases hr : addWalk child rest last v with ⟨t2, err⟩
        rw [hr] at h
        simp only [Prod.mk.injEq] at h
        obtain ⟨ht, herr⟩ := h
        subst herr
        rw [← ht]
        simp only [List.cons_append, walkNode,
          NodeMap.find_replace e t2 ns (by simp [hf])]
        exact ih child t2 last v hr
      | none =>
        simp only [addWalk, hf] at h
        rcases hr : addWalk (.interior .nil : Node V) rest last v with ⟨t2, err⟩
        rw [hr] at h
        simp only [Prod.mk.injEq] at h
        obtain ⟨ht, herr⟩ := h
        subst herr
        rw [← ht]
        simp only [List.cons_append, walkNode,
          NodeMap.find_append_self e t2 ns hf]
        exact ih _ t2 last v hr

/-- Re-running a successful insertion walk with the same elements fails with
the duplicate error and leaves the tree unchanged. -/
theorem addWalk_dup_rerun {V : Type} :
    ∀ (p : List String) (n t : Node V) (last : String) (v v2 : V),
      addWalk n p last v = (t, none) →
      addWalk t p last v2 = (t, some .duplicateSignature) := by
  intro p
  induction p with
  | nil =>
    intro n t last v v2 h
    cases n with
    | leaf v0 => simp [addWalk] at h
    | interior ns =>
      by_cases hm : pyStartsWith last "member:"
      · cases hf : ns.find last with
        | some c => simp [addWalk, hm, hf] at h
        | none =>
          simp [addWalk, hm, hf] at h
          rw [← h]
          simp [addWalk, hm, NodeMap.find_append_self last (.leaf v) ns hf]
      · simp [addWalk, hm] at h
  | cons e rest ih =>
    intro n t last v v2 h
    cases n with
    | leaf v0 => simp [addWalk] at h
    | interior ns =>
      cases hf : ns.find e with
      | some child =>
        simp only [addWalk, hf] at h
        rcases hr : addWalk child rest last v with ⟨t2, err⟩
        rw [hr] at h
        simp only [Prod.mk.injEq] at h
        obtain ⟨ht, herr⟩ := h
        subst herr
        rw [← ht]
        have hfind : (ns.replace e t2).find e = some t2 :=
          NodeMap.find_replace e t2 ns (by simp [hf])
        simp only [addWalk, hfind, ih child t2 last v v2 hr]
        rw [NodeMap.replace_cancel e t2 (ns.replace e t2) hfind]
      | none =>
        simp only [addWalk, hf] at h
        rcases hr : addWalk (.interior .nil : Node V) rest last v with ⟨t2, err⟩
        rw [hr] at h
        simp only [Prod.mk.injEq] at h
        obtain ⟨ht, herr⟩ := h
        subst herr
        rw [← ht]
        have hfind : (ns.append e t2).find e = some t2 :=
          NodeMap.find_append_self e t2 ns hf
        simp only [addWalk, hfind, ih _ t2 last v v2 hr]
        rw [NodeMap.replace_cancel e t2 (ns.append e t2) hfind]

/-- An insertion walk starting from a freshly created empty node never
reports a duplicate. -/
theorem addWalk_fresh_no_dup {V : Type} :
    ∀ (p : List String) (last : String) (v : V),
      (addWalk (.interior .nil : Node V) p last v).2 ≠ some .duplicateSignature := by
  intro p
  induction p with
  | nil =>
    intro last v
    by_cases hm : pyStartsWith last "member:"
    · simp [addWalk, hm, NodeMap.find]
    · simp [addWalk, hm]
  | cons e rest ih =>
    intro last v
    have hf : (NodeMap.nil : NodeMap V).find e = none := by simp [NodeMap.find]
    simp only [addWalk, hf]
    exact ih last v

/-- An insertion walk that fails with the duplicate error leaves the tree
exactly unchanged. -/
theorem addWalk_dup_unchanged {V : Type} :
    ∀ (p : List String) (n t : Node V) (last : String) (v : V),
      addWalk n p last v = (t, some .duplicateSignature) → t = n := by
  intro p
  induction p with
  | nil =>
    intro n t last v h
    cases n with
    | leaf v0 => simp [addWalk] at h
    | interior ns =>
      by_cases hm : pyStartsWith last "member:"
      · cases hf : ns.find last with
        | some c =>
          simp [addWalk, hm, hf] at h
          exact h.symm
        | none => simp [addWalk, hm, hf] at h
      · simp [addWalk, hm] at h
  | cons e rest ih =>
    intro n t last v h
    cases n with
    | leaf v0 => simp [addWalk] at h
    | interior ns =>
      cases hf : ns.find e with
      | some child =>
        simp only [addWalk, hf] at h
        rcases hr : addWalk child rest last v with ⟨t2, err⟩
        rw [hr] at h
        simp only [Prod.mk.injEq] at h
        obtain ⟨ht, herr⟩ := h
        have ht2 : t2 = child := ih child t2 last v (by rw [hr, herr])
        subst ht2
        rw [← ht, NodeMap.replace_cancel e t2 ns hf]
      | none =>
        simp only [addWalk, hf] at h
        rcases hr : addWalk (.interior .nil : Node V) rest last v with ⟨t2, err⟩
        rw [hr] at h
        simp only [Prod.mk.injEq] at h
        exact absurd (by rw [hr, h.2] : (addWalk (.interior .nil : Node V) rest last v).2 = some .duplicateSignature)
          (addWalk_fresh_no_dup rest last v)

/-- A failed insertion walk never changes the stored values: at worst it
creates empty interior nodes. -/
theorem addWalk_err_values {V : Type} :
    ∀ (p : List String) (n t : Node V) (last : String) (v : V) (err : TrieError),
      addWalk n p last v = (t, some err) → subtreeValues t = subtreeValues n := by
  intro p
  induction p with
  | nil =>
    intro n t last v err h
    cases n with
    | leaf v0 =>
      simp only [addWalk, Prod.mk.injEq] at h
      exact congrArg subtreeValues h.1.symm
    | interior ns =>
      by_cases hm : pyStartsWith last "member:"
      · cases hf : ns.find last with
        | some c =>
          simp [addWalk, hm, hf] at h
          rw [← h.1]
        | none => simp [addWalk, hm, hf] at h
      · simp [addWalk, hm] at h
        rw [← h.1]
  | cons e rest ih =>
    intro n t last v err h
    cases n with
    | leaf v0 =>
      simp only [addWalk, Prod.mk.injEq] at h
      exact congrArg subtreeValues h.1.symm
    | interior ns =>
      cases hf : ns.find e with
      | some child =>
        simp only [addWalk, hf] at h
        rcases hr : addWalk child rest last v with ⟨t2, e2⟩
        rw [hr] at h
        simp only [Prod.mk.injEq] at h
        obtain ⟨ht, herr⟩ := h
        have hv : subtreeValues t2 = subtreeValues child :=
          ih child t2 last v err (by rw [hr, herr])
        rw [← ht]
        simp only [subtreeValues]
        exact subtreeValuesMap_replace_eq e child t2 hv ns hf
      | none =>
        simp only [addWalk, hf] at h
        rcases hr : addWalk (.interior .nil : Node V) rest last v with ⟨t2, e2⟩
        rw [hr] at h
        simp only [Prod.mk.injEq] at h
        obtain ⟨ht, herr⟩ := h
        have hv : subtreeValues t2 = subtreeValues (.interior .nil : Node V) :=
          ih _ t2 last v err (by rw [hr, herr])
        rw [← ht]
        simp only [subtreeValues]
        rw [subtreeValuesMap_append e t2 ns, hv]
        simp [subtreeValues, subtreeValuesMap]

/-- A successful insertion walk adds exactly the one new value: the stored
values afterwards are a permutation of the new value plus the old ones. -/
theorem addWalk_none_perm {V : Type} :
    ∀ (p : List String) (n t : Node V) (last : String) (v : V),
      addWalk n p last v = (t, none) →
      (subtreeValues t).Perm (v :: subtreeValues n) := by
  intro p
  induction p with
  | nil =>
    intro n t last v h
    cases n with
    | leaf v0 => simp [addWalk] at h
    | interior ns =>
      by_cases hm : pyStartsWith last "member:"
      · cases hf : ns.find last with
        | some c => simp [addWalk, hm, hf] at h
        | none =>
          simp [addWalk, hm, hf] at h
          rw [← h]
          simp only [subtreeValues, subtreeValuesMap_append last (.leaf v) ns]
          simp [subtreeValues]
      · simp [addWalk, hm] at h
  | cons e rest ih =>
    intro n t last v h
    cases n with
    | leaf v0 => simp [addWalk] at h
    | interior ns =>
      cases hf : ns.find e with
      | some child =>
        simp only [addWalk, hf] at h
        rcases hr : addWalk child rest last v with ⟨t2, err⟩
        rw [hr] at h
        simp only [Prod.mk.injEq] at h
        obtain ⟨ht, herr⟩ := h
        subst herr
        rw [← ht]
        simp only [subtreeValues]
        exact subtreeValuesMap_replace_perm e child t2 v (ih child t2 last v hr) ns hf
      | none =>
        simp only [addWalk, hf] at h
        rcases hr : addWalk (.interior .nil : Node V) rest last v with ⟨t2, err⟩
        rw [hr] at h
        simp only [Prod.mk.injEq] at h
        obtain ⟨ht, herr⟩ := h
        subst herr
        rw [← ht]
        simp only [subtreeValues]
        rw [subtreeValuesMap_append e t2 ns]
        have h2 : (subtreeValues t2).Perm [v] := by
          simpa [subtreeValues, subtreeValuesMap] using ih _ t2 last v hr
        exact (h2.append_left (subtreeValuesMap ns)).trans (List.perm_append_singleton v _)

/-! ### Decomposition lemmas -/

/-- The split worker never produces an empty list of chunks. -/
theorem splitChAux_ne_nil (sep : List Char) :
    ∀ (fuel : Nat) (s acc : List Char), splitChAux sep fuel s acc ≠ [] := by
  intro fuel
  induction fuel with
  | zero => intro s acc; cases s <;> simp [splitChAux]
  | succ fuel ih =>
    intro s acc
    cases s with
    | nil => simp [splitChAux]
    | cons c rest =>
      by_cases hp : sep.isPrefixOf (c :: rest)
      · simp [splitChAux, hp]
      · simp only [splitChAux, if_neg hp]
        exact ih rest (acc ++ [c])

/-- Python `split` never returns an empty list of chunks. -/
theorem pySplit_ne_nil (s sep : String) : pySplit s sep ≠ [] := by
  unfold pySplit
  intro hc
  rcases hsplit : splitChAux sep.data s.data.length s.data [] with _ | ⟨a, l⟩
  · exact splitChAux_ne_nil sep.data s.data.length s.data [] hsplit
  · rw [hsplit] at hc
    simp at hc

/-- Decomposition never yields an empty element list. -/
theorem signature_to_elements_ne_nil (s : String) (es : List String)
    (h : signature_to_elements s = .ok es) : es ≠ [] := by
  intro hnil
  subst hnil
  simp only [signature_to_elements] at h
  split at h
  · split at h
    · exact Except.noConfusion h
    · simp at h
  · simp only [Except.ok.injEq] at h
    have h2 := congrArg List.length h
    simp [List.length_append] at h2
    exact pySplit_ne_nil _ "$" h2.2.1

/-- On a decomposition `.ok es`, `add` runs the insertion walk over `es`. -/
theorem add_eq_addWalk {V : Type} (root : Node V) (s : String) (v : V) (es : List String)
    (hse : signature_to_elements s = .ok es) (hne : es ≠ []) :
    add root s v = addWalk root es.dropLast (es.getLast hne) v := by
  cases es with
  | nil => exact absurd rfl hne
  | cons e es2 => simp [add, hse]

/-- On a decomposition `.ok es`, `get_matching_rows` runs the query walk over
`es`, with trailing-wildcard trimming and selector choice. -/
theorem get_matching_rows_eq {V : Type} (root : Node V) (p : String) (es : List String)
    (hse : signature_to_elements p = .ok es) (hne : es ≠ []) :
    get_matching_rows root p =
      (if es.getLast hne = "*" ∨ es.getLast hne = "**" then
        matchWalk root es.dropLast
          (if es.getLast hne = "*" then fun x => !(pyStartsWith x "package:")
           else fun _ => true)
      else matchWalk root es (fun _ => true)) := by
  cases es with
  | nil => exact absurd rfl hne
  | cons e es2 => simp [get_matching_rows, hse]

/-- An element tagged `member:` is not a wildcard marker. -/
theorem member_not_wild (x : String) (h : pyStartsWith x "member:" = true) :
    x ≠ "*" ∧ x ≠ "**" := by
  constructor <;> intro he <;> subst he <;> exact absurd h (by decide)

/-! ### Insertion-level helpers -/

/-- Core of the insert-then-match round trip: after a successful `add`,
querying the same signature returns exactly the inserted value. -/
theorem add_none_get {V : Type} (root t : Node V) (s : String) (v : V)
    (h : add root s v = (t, none)) : get_matching_rows t s = .ok [v] := by
  cases hse : signature_to_elements s with
  | error err => simp [add, hse] at h
  | ok es =>
    cases es with
    | nil => simp [add, hse] at h
    | cons e es2 =>
      rw [add_eq_addWalk root s v (e :: es2) hse (List.cons_ne_nil e es2)] at h
      have hm := addWalk_member (e :: es2).dropLast root t _ v h
      have hw := member_not_wild _ hm
      rw [get_matching_rows_eq t s (e :: es2) hse (List.cons_ne_nil e es2),
        if_neg (by simp [hw.1, hw.2])]
      have hpath := addWalk_walkNode (e :: es2).dropLast root t _ v h
      rw [List.dropLast_append_getLast (List.cons_ne_nil e es2)] at hpath
      rw [matchWalk_walkNode (fun _ => true) (e :: es2) t (.leaf v) hpath]
      simp [selectedValues]

/-- A failed `add` never changes the stored values. -/
theorem add_some_values {V : Type} (root t : Node V) (s : String) (v : V) (err : TrieError)
    (h : add root s v = (t, some err)) : subtreeValues t = subtreeValues root := by
  cases hse : signature_to_elements s with
  | error e2 =>
    simp [add, hse] at h
    rw [← h.1]
  | ok es =>
    cases es with
    | nil =>
      simp [add, hse] at h
      rw [← h.1]
    | cons e es2 =>
      rw [add_eq_addWalk root s v (e :: es2) hse (List.cons_ne_nil e es2)] at h
      exact addWalk_err_values (e :: es2).dropLast root t _ v err h

/-- A successful `add` puts exactly the one new value into the tree. -/
theorem add_none_perm {V : Type} (root t : Node V) (s : String) (v : V)
    (h : add root s v = (t, none)) :
    (subtreeValues t).Perm (v :: subtreeValues root) := by
  cases hse : signature_to_elements s with
  | error e2 => simp [add, hse] at h
  | ok es =>
    cases es with
    | nil => simp [add, hse] at h
    | cons e es2 =>
      rw [add_eq_addWalk root s v (e :: es2) hse (List.cons_ne_nil e es2)] at h
      exact addWalk_none_perm (e :: es2).dropLast root t _ v h

/-- Over any insertion run, the stored values are a permutation of the values
whose insertion succeeded (plus whatever was in the tree at the start). -/
theorem insertAll_perm {V : Type} :
    ∀ (l : List (String × V)) (t : Node V),
      (subtreeValues (insertAll t l)).Perm (successfulValues t l ++ subtreeValues t) := by
  intro l
  induction l with
  | nil => intro t; simp [insertAll, successfulValues]
  | cons sv rest ih =>
    intro t
    obtain ⟨s, v⟩ := sv
    have hpair : add t s v = ((add t s v).1, (add t s v).2) := rfl
    cases herr : (add t s v).2 with
    | none =>
      have hperm := add_none_perm t (add t s v).1 s v (by rw [hpair, herr])
      simp only [insertAll, successfulValues, herr, if_pos rfl]
      exact (ih _).trans (((hperm.append_left _).trans List.perm_middle).symm).symm
    | some err2 =>
      have heq := add_some_values t (add t s v).1 s v err2 (by rw [hpair, herr])
      simp only [insertAll, successfulValues, herr]
      simp only [Option.some_ne_none, if_false, reduceCtorEq, if_neg, List.nil_append]
      exact (ih _).trans (by rw [heq])

/-! ### First-occurrence characterization of the splitter -/

/-- Index of the first occurrence of `sep` in a character list, if any. -/
def findOcc (sep : List Char) : List Char → Option Nat
  | [] => if sep.isPrefixOf ([] : List Char) then some 0 else none
  | c :: rest =>
    if sep.isPrefixOf (c :: rest) then some 0
    else (findOcc sep rest).map (fun n => n + 1)

/-- The split worker's result does not depend on the fuel, as long as the
fuel covers the input length. -/
theorem splitChAux_fuel (sep : List Char) (hsep : sep ≠ []) :
    ∀ (n m : Nat) (s acc : List Char), s.length ≤ n → s.length ≤ m →
      splitChAux sep n s acc = splitChAux sep m s acc := by
  have hsl : 0 < sep.length := List.length_pos.mpr hsep
  intro n
  induction n with
  | zero =>
    intro m s acc hn hm
    cases s with
    | nil => cases m <;> simp [splitChAux]
    | cons c rest => simp at hn
  | succ n ih =>
    intro m s acc hn hm
    cases s with
    | nil => cases m <;> simp [splitChAux]
    | cons c rest =>
      cases m with
      | zero => simp at hm
      | succ m =>
        simp only [List.length_cons, Nat.succ_le_succ_iff] at hn hm
        by_cases hp : sep.isPrefixOf (c :: rest)
        · simp only [splitChAux, if_pos hp]
          congr 1
          apply ih
          · simp only [List.length_drop, List.length_cons]
            omega
          · simp only [List.length_drop, List.length_cons]
            omega
        · simp only [splitChAux, if_neg hp]
          exact ih m rest (acc ++ [c]) hn hm

/-- The split worker splits at the first occurrence of the separator and then
recurses on the remainder after it; with no occurrence the whole input is one
chunk. -/
theorem splitChAux_first (sep : List Char) (hsep : sep ≠ []) :
    ∀ (fuel : Nat) (s acc : List Char), s.length ≤ fuel →
      splitChAux sep fuel s acc =
        match findOcc sep s with
        | none => [acc ++ s]
        | some i =>
          (acc ++ s.take i) ::
            splitChAux sep (s.drop (i + sep.length)).length (s.drop (i + sep.length)) [] := by
  have hsl : 0 < sep.length := List.length_pos.mpr hsep
  have hocc_nil : findOcc sep ([] : List Char) = none := by
    cases sep with
    | nil => exact absurd rfl hsep
    | cons a as => simp [findOcc, List.isPrefixOf]
  intro fuel
  induction fuel with
  | zero =>
    intro s acc hle
    cases s with
    | nil => simp [splitChAux, hocc_nil]
    | cons c rest => simp at hle
  | succ fuel ih =>
    intro s acc hle
    cases s with
    | nil => simp [splitChAux, hocc_nil]
    | cons c rest =>
      simp only [List.length_cons, Nat.succ_le_succ_iff] at hle
      by_cases hp : sep.isPrefixOf (c :: rest)
      · simp only [splitChAux, if_pos hp, findOcc]
        congr 1
        · simp
        · have harith : 0 + sep.length = sep.length := Nat.zero_add _
          rw [harith]
          apply splitChAux_fuel sep hsep
          · simp only [List.length_drop, List.length_cons]
            omega
          · exact le_refl _
      · simp only [splitChAux, if_neg hp]
        rw [ih rest (acc ++ [c]) hle]
        simp only [findOcc, if_neg hp]
        cases ho : findOcc sep rest with
        | none => simp [ho]
        | some j =>
          simp only [ho, Option.map_some']
          congr 1
          · simp [List.take_succ_cons]
          · have h1 : j + 1 + sep.length = (j + sep.length) + 1 := by omega
            rw [h1, List.drop_succ_cons]

/-- Python `split` splits at the first occurrence of the separator, then
splits the remainder after that occurrence the same way; a string without the
separator is one single chunk.  In particular the part after the first
occurrence is itself split further at each later occurrence. -/
theorem pySplit_first (s sep : String) (hsep : sep.data ≠ []) :
    pySplit s sep =
      match findOcc sep.data s.data with
      | none => [s]
      | some i =>
        (⟨s.data.take i⟩ : String) :: pySplit ⟨s.data.drop (i + sep.data.length)⟩ sep := by
  unfold pySplit
  rw [splitChAux_first sep.data hsep s.data.length s.data [] (le_refl _)]
  cases ho : findOcc sep.data s.data with
  | none => simp
  | some i => simp

/-- A query walk with no elements left collects at the current node. -/
theorem matchWalk_nil {V : Type} (n : Node V) (sel : String → Bool) :
    matchWalk n [] sel = .ok ((n.values sel).flatten) := by
  cases n <;> rfl

/-- Bridge between `getLastD` (used by the decomposer) and `getLast` (used by
the walk wrappers) on a non-empty list. -/
theorem getLastD_of_ne_nil {α : Type} (l : List α) (d : α) (h : l ≠ []) :
    l.getLastD d = l.getLast h := by
  cases l with
  | nil => exact absurd rfl h
  | cons a as => simp [List.getLastD_eq_getLast?, List.getLast?_eq_getLast]

/-! ## Claim theorems -/

/-- C1: for every trie, signature and value, after `insert(s, v)` (the `add`
method) succeeds, `match(s)` (the `get_matching_rows` method) returns a
singleton collection containing exactly `v`. -/
theorem claim1_insert_then_exact_match {V : Type} (root t : Node V) (s : String) (v : V)
    (h : add root s v = (t, none)) : get_matching_rows t s = .ok [v] :=
  add_none_get root t s v h

/-- Witness for C1: a concrete successful insertion followed by an exact
match. -/
theorem claim1_witness :
    get_matching_rows (add (signature_trie : Node Nat) "La/B;->m()V" 7).1 "La/B;->m()V" =
      .ok [7] :=
  claim1_insert_then_exact_match (signature_trie : Node Nat)
    (add (signature_trie : Node Nat) "La/B;->m()V" 7).1 "La/B;->m()V" 7 (by rfl)

/-- C2: a match on a pattern ending in the single-level wildcard collects,
from the node reached by the preceding elements, exactly the entire subtrees
of the first-level children whose key is not tagged `package:` — so values in
sub-packages are excluded; concretely, after inserting members of `pkg.Foo`
and `pkg.sub.Bar`, `Lpkg/*` returns only the first value while `Lpkg/**`
returns both. -/
theorem claim2_single_wildcard {V : Type} (v1 v2 : V) :
    (∀ (root : Node V) (p : String) (es : List String) (ns : NodeMap V),
      signature_to_elements p = .ok (es ++ ["*"]) →
      walkNode root es = some (.interior ns) →
      get_matching_rows root p =
        .ok (selectedValuesMap (fun x => !(pyStartsWith x "package:")) ns)) ∧
    get_matching_rows
      (add (add (signature_trie : Node V) "Lpkg/Foo;->m()V" v1).1 "Lpkg/sub/Bar;->n()V" v2).1
      "Lpkg/*" = .ok [v1] ∧
    get_matching_rows
      (add (add (signature_trie : Node V) "Lpkg/Foo;->m()V" v1).1 "Lpkg/sub/Bar;->n()V" v2).1
      "Lpkg/**" = .ok [v1, v2] := by
  refine ⟨?_, rfl, rfl⟩
  intro root p es ns hse hwalk
  have hne : es ++ ["*"] ≠ [] := by simp
  rw [get_matching_rows_eq root p (es ++ ["*"]) hse hne]
  have hlast : (es ++ ["*"]).getLast hne = "*" := List.getLast_append_singleton es
  rw [hlast, if_pos (Or.inl rfl), if_pos rfl, List.dropLast_concat,
    matchWalk_walkNode (fun x => !(pyStartsWith x "package:")) es root (.interior ns) hwalk]
  simp [selectedValues]

/-- Witness for C2: the general wildcard characterization applied to a
concrete one-entry trie. -/
theorem claim2_witness :
    get_matching_rows (add (signature_trie : Node Nat) "Lpkg/Foo;->m()V" 5).1 "Lpkg/*" =
      .ok (selectedValuesMap (fun x => !(pyStartsWith x "package:"))
        (.cons "class:Foo" (.interior (.cons "member:m()V" (.leaf 5) .nil)) .nil)) :=
  (claim2_single_wildcard (5 : Nat) 5).1 (add (signature_trie : Node Nat) "Lpkg/Foo;->m()V" 5).1
    "Lpkg/*" ["package:pkg"]
    (.cons "class:Foo" (.interior (.cons "member:m()V" (.leaf 5) .nil)) .nil)
    (by rfl) (by rfl)

/-- C3 counterexample: on an input containing two `;->` separators the
decomposer does not carry everything after the first separator as one member
element (which would be `member:b;->c`); it splits again and emits one
`member:` element per part. -/
theorem claim3_counterexample :
    signature_to_elements "La;->b;->c" = .ok ["class:a", "member:b", "member:c"] ∧
    ["class:a", "member:b", "member:c"] ≠ ["class:a", "member:b;->c"] :=
  ⟨rfl, by decide⟩

/-- C3 amended: the decomposer splits at the FIRST occurrence of `;->` and
then keeps splitting the remainder at each later occurrence
(`pySplit_first`); every part after the first becomes its own trailing
`member:` element, so the remainder is not carried literally as a single
member element. -/
theorem claim3_amended (s : String) :
    (pySplit s ";->" =
      match findOcc ((";->" : String).data) s.data with
      | none => [s]
      | some i =>
        (⟨s.data.take i⟩ : String) ::
          pySplit ⟨s.data.drop (i + ((";->" : String).data).length)⟩ ";->") ∧
    ((pySplit ((pySplit (stripL s) ";->").headD "") "/").getLastD "" ≠ "*" →
     (pySplit ((pySplit (stripL s) ";->").headD "") "/").getLastD "" ≠ "**" →
      signature_to_elements s =
        .ok (((pySplit ((pySplit (stripL s) ";->").headD "") "/").dropLast).map
              (fun x => "package:" ++ x) ++
            (pySplit ((pySplit ((pySplit (stripL s) ";->").headD "") "/").getLastD "") "$").map
              (fun x => "class:" ++ x) ++
            (pySplit (stripL s) ";->").tail.map (fun x => "member:" ++ x))) := by
  constructor
  · exact pySplit_first s ";->" (by decide)
  · intro h1 h2
    simp only [signature_to_elements]
    rw [if_neg (fun hc => hc.elim h1 h2)]

/-- Witness for C3: the amended decomposition shape at the double-separator
input. -/
theorem claim3_witness :
    signature_to_elements "La;->b;->c" =
      .ok (((pySplit ((pySplit (stripL "La;->b;->c") ";->").headD "") "/").dropLast).map
            (fun x => "package:" ++ x) ++
          (pySplit ((pySplit ((pySplit (stripL "La;->b;->c") ";->").headD "") "/").getLastD "")
            "$").map (fun x => "class:" ++ x) ++
          (pySplit (stripL "La;->b;->c") ";->").tail.map (fun x => "member:" ++ x)) :=
  (claim3_amended "La;->b;->c").2 (by decide) (by decide)

/-- C4 amended: a failed insertion never adds or changes a stored value — the
tree's values are exactly as before — and an insertion failing with the
duplicate error leaves the tree entirely unchanged.  (An insertion failing
with the invalid-member error may still create empty interior nodes along the
walked path, as the counterexample shows, so the tree is not always literally
identical.) -/
theorem claim4_amended {V : Type} (root t : Node V) (s : String) (v : V) :
    (∀ err, add root s v = (t, some err) → subtreeValues t = subtreeValues root) ∧
    (add root s v = (t, some .duplicateSignature) → t = root) := by
  constructor
  · intro err h
    exact add_some_values root t s v err h
  · intro h
    cases hse : signature_to_elements s with
    | error e2 =>
      simp [add, hse] at h
      exact h.1.symm
    | ok es =>
      cases es with
      | nil => simp [add, hse] at h
      | cons e es2 =>
        rw [add_eq_addWalk root s v (e :: es2) hse (List.cons_ne_nil e es2)] at h
        exact addWalk_dup_unchanged (e :: es2).dropLast root t _ v h

/-- C4 counterexample: an insertion failing with the invalid-member error has
already mutated the tree: inserting the class pattern `La/B` into the empty
trie fails but creates an interior node under `package:a`. -/
theorem claim4_counterexample :
    add (signature_trie : Node Nat) "La/B" 0 =
      (.interior (.cons "package:a" (.interior .nil) .nil), some .invalidMemberSignature) ∧
    (Node.interior (.cons "package:a" (.interior .nil) .nil) : Node Nat) ≠ signature_trie :=
  ⟨rfl, by simp [signature_trie]⟩

/-- Witness for C4: the value-preservation part applied at the concrete
failing insertion. -/
theorem claim4_witness :
    subtreeValues (add (signature_trie : Node Nat) "La/B" 0).1 =
      subtreeValues (signature_trie : Node Nat) :=
  (claim4_amended (signature_trie : Node Nat) (add (signature_trie : Node Nat) "La/B" 0).1
    "La/B" 0).1 .invalidMemberSignature (by rfl)

/-- C5: if `s` and `s2` decompose to the identical element sequence and
`insert(s, v1)` succeeded, then `insert(s2, v2)` fails with the duplicate
error, and afterwards the trie is unchanged and `match(s)` still returns only
`v1`. -/
theorem claim5_duplicate_rejection {V : Type} (root t : Node V) (s s2 : String)
    (v1 v2 : V) (es : List String)
    (hs : signature_to_elements s = .ok es) (hs2 : signature_to_elements s2 = .ok es)
    (h : add root s v1 = (t, none)) :
    add t s2 v2 = (t, some .duplicateSignature) ∧
    get_matching_rows (add t s2 v2).1 s = .ok [v1] := by
  have hne : es ≠ [] := signature_to_elements_ne_nil s es hs
  have hw : addWalk root es.dropLast (es.getLast hne) v1 = (t, none) := by
    rw [← add_eq_addWalk root s v1 es hs hne]
    exact h
  have h2 : add t s2 v2 = (t, some .duplicateSignature) := by
    rw [add_eq_addWalk t s2 v2 es hs2 hne]
    exact addWalk_dup_rerun es.dropLast root t (es.getLast hne) v1 v2 hw
  exact ⟨h2, by rw [h2]; exact add_none_get root t s v1 h⟩

/-- Witness for C5: a concrete duplicate insertion. -/
theorem claim5_witness :
    add (add (signature_trie : Node Nat) "La;->m()V" 1).1 "La;->m()V" 2 =
      ((add (signature_trie : Node Nat) "La;->m()V" 1).1, some .duplicateSignature) ∧
    get_matching_rows
      (add (add (signature_trie : Node Nat) "La;->m()V" 1).1 "La;->m()V" 2).1 "La;->m()V" =
      .ok [1] :=
  claim5_duplicate_rejection (signature_trie : Node Nat)
    (add (signature_trie : Node Nat) "La;->m()V" 1).1 "La;->m()V" "La;->m()V" 1 2
    ["class:a", "member:m()V"] (by rfl) (by rfl) (by rfl)

/-- C6: inner classes are nested beneath their outer class: after inserting a
member of `pkg.Outer$Inner`, the outer-class pattern `Lpkg/Outer` and the
inner-class pattern `Lpkg/Outer$Inner` both return exactly that value. -/
theorem claim6_nested_classes {V : Type} (v : V) :
    (add (signature_trie : Node V) "Lpkg/Outer$Inner;->m()V" v).2 = none ∧
    get_matching_rows (add (signature_trie : Node V) "Lpkg/Outer$Inner;->m()V" v).1
      "Lpkg/Outer" = .ok [v] ∧
    get_matching_rows (add (signature_trie : Node V) "Lpkg/Outer$Inner;->m()V" v).1
      "Lpkg/Outer$Inner" = .ok [v] :=
  ⟨rfl, rfl, rfl⟩

/-- C7: decomposition fails exactly when the final class-name component is a
wildcard marker combined with a member signature, and the error is always the
malformed-pattern one; the identical failure surfaces through `add` and
through `get_matching_rows`, in particular on `Lpkg/*;->m()V`. -/
theorem claim7_malformed_pattern {V : Type} (root : Node V) (v : V) (s : String) :
    (∀ err, signature_to_elements s = .error err ↔
      (err = .malformedPattern ∧ wildcardWithMember s = true)) ∧
    (wildcardWithMember s = true →
      add root s v = (root, some .malformedPattern) ∧
      get_matching_rows root s = .error .malformedPattern) ∧
    get_matching_rows root "Lpkg/*;->m()V" = .error .malformedPattern := by
  have hwwm : wildcardWithMember s = true ↔
      (((pySplit ((pySplit (stripL s) ";->").headD "") "/").getLastD "" = "*" ∨
        (pySplit ((pySplit (stripL s) ";->").headD "") "/").getLastD "" = "**") ∧
       (pySplit (stripL s) ";->").tail ≠ []) := by
    unfold wildcardWithMember
    simp [Bool.and_eq_true, Bool.or_eq_true, decide_eq_true_iff, List.isEmpty_iff]
  have hmain : ∀ err : TrieError, signature_to_elements s = .error err ↔
      (err = .malformedPattern ∧ wildcardWithMember s = true) := by
    intro err
    rw [hwwm]
    simp only [signature_to_elements]
    by_cases hcn : (pySplit ((pySplit (stripL s) ";->").headD "") "/").getLastD "" = "*" ∨
        (pySplit ((pySplit (stripL s) ";->").headD "") "/").getLastD "" = "**"
    · rw [if_pos hcn]
      by_cases htail : (pySplit (stripL s) ";->").tail.length ≠ 0
      · rw [if_pos htail]
        constructor
        · intro hmp
          injection hmp with h3
          exact ⟨h3.symm, hcn, fun hnil => htail (by rw [hnil]; rfl)⟩
        · rintro ⟨herr, -⟩
          rw [herr]
      · rw [if_neg htail]
        constructor
        · intro hcontra
          exact Except.noConfusion hcontra
        · rintro ⟨-, -, htl⟩
          push_neg at htail
          exact absurd (List.length_eq_zero.mp htail) htl
    · rw [if_neg hcn]
      constructor
      · intro hcontra
        exact Except.noConfusion hcontra
      · rintro ⟨-, hcn2, -⟩
        exact absurd hcn2 hcn
  refine ⟨hmain, ?_, ?_⟩
  · intro hw
    have herr : signature_to_elements s = .error .malformedPattern :=
      (hmain .malformedPattern).mpr ⟨rfl, hw⟩
    constructor
    · simp [add, herr]
    · simp [get_matching_rows, herr]
  · have herr : signature_to_elements "Lpkg/*;->m()V" = .error .malformedPattern := by rfl
    simp [get_matching_rows, herr]

/-- Witness for C7: the shared-failure part applied at a concrete malformed
pattern. -/
theorem claim7_witness :
    add (signature_trie : Node Nat) "Lx/*;->f()V" 3 =
      ((signature_trie : Node Nat), some .malformedPattern) ∧
    get_matching_rows (signature_trie : Node Nat) "Lx/*;->f()V" =
      .error .malformedPattern :=
  (claim7_malformed_pattern (signature_trie : Node Nat) 3 "Lx/*;->f()V").2.1 (by decide)

/-- C8: whenever the walked element path of a pattern (the decomposition,
with a trailing wildcard dropped) runs into a node with no child for the next
element, `match` returns the empty collection and never an error; in
particular a non-existent prefix on the empty trie yields `[]`. -/
theorem claim8_unmatched_empty {V : Type} (root : Node V) (p : String) (es : List String) :
    (signature_to_elements p = .ok es →
      walkMissing root (effectiveElements es) = true →
      get_matching_rows root p = .ok []) ∧
    get_matching_rows (signature_trie : Node Nat) "Lnosuch/Pkg" = .ok [] := by
  refine ⟨?_, rfl⟩
  intro hse hmiss
  have hne : es ≠ [] := signature_to_elements_ne_nil p es hse
  rw [get_matching_rows_eq root p es hse hne]
  have hlast : es.getLastD "" = es.getLast hne := getLastD_of_ne_nil es "" hne
  by_cases hwild : es.getLast hne = "*" ∨ es.getLast hne = "**"
  · rw [if_pos hwild]
    have heff : effectiveElements es = es.dropLast := by
      rw [effectiveElements, hlast]
      exact if_pos hwild
    rw [heff] at hmiss
    exact walkMissing_matchWalk _ es.dropLast root hmiss
  · rw [if_neg hwild]
    have heff : effectiveElements es = es := by
      rw [effectiveElements, hlast]
      exact if_neg hwild
    rw [heff] at hmiss
    exact walkMissing_matchWalk _ es root hmiss

/-- Witness for C8: a missing prefix on the empty trie. -/
theorem claim8_witness :
    get_matching_rows (signature_trie : Node Nat) "Lx/Y" = .ok [] :=
  (claim8_unmatched_empty (signature_trie : Node Nat) "Lx/Y"
    ["package:x", "class:Y"]).1 (by rfl) (by rfl)

/-- C9: a query never mutates the trie: the state-threaded query leaves the
tree exactly as it was, and repeating the query on the post-state tree gives
the same collection again. -/
theorem claim9_match_pure {V : Type} (root : Node V) (p : String) :
    get_matching_rows_st root p = (get_matching_rows root p, root) ∧
    get_matching_rows ((get_matching_rows_st root p).2) p = get_matching_rows root p := by
  have hmain : get_matching_rows_st root p = (get_matching_rows root p, root) := by
    cases hse : signature_to_elements p with
    | error err => simp [get_matching_rows_st, get_matching_rows, hse]
    | ok es =>
      cases es with
      | nil => simp [get_matching_rows_st, get_matching_rows, hse]
      | cons e es2 =>
        simp only [get_matching_rows_st, get_matching_rows, hse, matchWalkSt_spec]
        split <;> rfl
  exact ⟨hmain, by rw [hmain]⟩

/-- C10: bare root-level wildcard patterns are accepted: `**` and `L**`
return every stored value without raising — over any insertion run, exactly
the successfully inserted values up to order — and `*` returns exactly the
entire subtrees of the root children not tagged `package:`. -/
theorem claim10_root_wildcards {V : Type} (root : Node V) (ns : NodeMap V)
    (l : List (String × V)) :
    get_matching_rows root "**" = .ok (subtreeValues root) ∧
    get_matching_rows root "L**" = .ok (subtreeValues root) ∧
    get_matching_rows (Node.interior ns) "*" =
      .ok (selectedValuesMap (fun x => !(pyStartsWith x "package:")) ns) ∧
    (subtreeValues (insertAll (signature_trie : Node V) l)).Perm
      (successfulValues (signature_trie : Node V) l) := by
  refine ⟨?_, ?_, ?_, ?_⟩
  · rw [get_matching_rows_eq root "**" ["**"] rfl (by simp)]
    have h1 : ¬(("**" : String) = "*") := by decide
    simp [h1, List.dropLast, matchWalk_nil, values_flatten, selectedValues_true]
  · rw [get_matching_rows_eq root "L**" ["**"] rfl (by simp)]
    have h1 : ¬(("**" : String) = "*") := by decide
    simp [h1, List.dropLast, matchWalk_nil, values_flatten, selectedValues_true]
  · rw [get_matching_rows_eq (Node.interior ns) "*" ["*"] rfl (by simp)]
    simp [List.dropLast, matchWalk_nil, values_flatten, selectedValues]
  · have h := insertAll_perm l (signature_trie : Node V)
    simpa [signature_trie, subtreeValues, subtreeValuesMap] using h

end SignatureTrie
